import Mathlib

/-!
Verification of the fenced-code-block autocompletion plugin
(`codeblockAutocomplete`). The development shallowly embeds the pure core of
the plugin:

* `parseOpeningFence`, `createApplyFunction`, the option-building part of
  `codeBlockCompleter` and the decision logic of `triggerCompletionOnFence`,
  all from `src/contentScript/codeMirror6Plugin.ts`;
* the `LanguageCache` state machine from `src/contentScript/LanguageCache.ts`;
* `getLanguageList` and `DEFAULT_LANGUAGES` from `src/settings.ts`.

Strings are modelled as `List Char`; documents are a single string, with
CodeMirror line/offset bookkeeping made explicit. JavaScript regular
expressions are embedded by their (greedy) matching behaviour on the line,
`Array.prototype.sort` with the `localeCompare` comparator is modelled as a
stable sort under `localeLe`, and the asynchronous fetch is modelled as an
explicit `FetchOutcome` argument with the `try`/`catch` boundary made explicit
via `Except`.
-/

namespace CodeblockAutocomplete

/-- Strings of the embedded program are lists of characters. -/
abbrev Str := List Char

/-- The backtick character (code point 96). -/
def backtickChar : Char := Char.ofNat 96

/-- Whether a character can open a fence: backtick or tilde. -/
def isFenceChar (c : Char) : Bool := c = backtickChar || c = '~'

/-- Character class `[^\s`]` from the fence regex: the characters allowed in
the language word (neither whitespace nor a backtick). -/
def langChar (c : Char) : Bool := !c.isWhitespace && c != backtickChar

/-- Structural facts of an opening fence, as returned by `parseOpeningFence`
in `codeMirror6Plugin.ts`. -/
structure OpeningFence where
  indent : Str
  fenceChar : Char
  fenceCount : Nat
  typedLang : Str
  languageStartPos : Nat
deriving Repr, DecidableEq

/-- Embedding of `parseOpeningFence(state, pos)` from `codeMirror6Plugin.ts`.
The function receives the text of the line containing the cursor, the
absolute offset of the line start (`line.from`) and the cursor offset, and
evaluates the greedy match of the regex
`/^(\s*)(`{3,}|~{3,})([^\s`]*)/` followed by the cursor-position guard. -/
def parseOpeningFence (lineText : Str) (lineStartPos pos : Nat) : Option OpeningFence :=
  let indent := lineText.takeWhile (·.isWhitespace)
  let rest := lineText.drop indent.length
  match rest with
  | [] => none
  | c :: _ =>
    if isFenceChar c then
      let fence := rest.takeWhile (· == c)
      if 3 ≤ fence.length then
        let typedLang := (rest.drop fence.length).takeWhile langChar
        let fenceStart := lineStartPos + indent.length
        if pos < fenceStart + fence.length then none
        else some ⟨indent, c, fence.length, typedLang, fenceStart + fence.length⟩
      else none
    else none

/-- Result of dispatching the transaction built by the completion apply
function: the new document and the new cursor (selection anchor). -/
structure ApplyResult where
  doc : Str
  cursor : Nat
deriving Repr, DecidableEq

/-- Embedding of `createApplyFunction(desiredLang, openingFence)` from
`codeMirror6Plugin.ts`, applied to an editor state: `doc` is the document,
`stateLineBreak` is `view.state.lineBreak` (with the `|| '\n'` fallback),
`fromPos` is the `from` argument CodeMirror passes to `apply` (the result's
`from`, i.e. `languageStartPos`), and `currentPos` is
`view.state.selection.main.head`. The dispatched change replaces
`[fromPos, currentPos)` with the insertion text and moves the cursor. -/
def createApplyFunction (desiredLang : Str) (openingFence : OpeningFence)
    (doc : Str) (stateLineBreak : Str) (fromPos currentPos : Nat) : ApplyResult :=
  let lineBreak := if stateLineBreak.isEmpty then ['\n'] else stateLineBreak
  let fence := List.replicate openingFence.fenceCount openingFence.fenceChar
  let insertText := desiredLang ++ lineBreak ++ openingFence.indent ++ lineBreak ++
    openingFence.indent ++ fence
  let cursorOffset := fromPos + desiredLang.length + lineBreak.length +
    openingFence.indent.length
  ⟨doc.take fromPos ++ insertText ++ doc.drop currentPos, cursorOffset⟩

/-- Lower-cases a string, modelling `String.prototype.toLowerCase`. -/
def lowerKey (s : Str) : Str := s.map Char.toLower

/-- Model of the default-locale `a.localeCompare(b) <= 0` comparison used by
the catalog sort: primary strength compares the lower-cased strings
lexicographically, with the raw strings as tie-break. -/
def localeLe (a b : Str) : Prop :=
  lowerKey a < lowerKey b ∨ (lowerKey a = lowerKey b ∧ a ≤ b)

instance : DecidableRel localeLe := fun a b => by
  unfold localeLe; infer_instance

instance : IsTotal Str localeLe := by
  constructor
  intro a b
  rcases lt_trichotomy (lowerKey a) (lowerKey b) with h | h | h
  · exact Or.inl (Or.inl h)
  · rcases le_total a b with h2 | h2
    · exact Or.inl (Or.inr ⟨h, h2⟩)
    · exact Or.inr (Or.inr ⟨h.symm, h2⟩)
  · exact Or.inr (Or.inl h)

instance : IsTrans Str localeLe := by
  constructor
  intro a b c hab hbc
  rcases hab with h1 | ⟨h1, h1'⟩ <;> rcases hbc with h2 | ⟨h2, h2'⟩
  · exact Or.inl (h1.trans h2)
  · exact Or.inl (h2 ▸ h1)
  · exact Or.inl (h1 ▸ h2)
  · exact Or.inr ⟨h1.trans h2, h1'.trans h2'⟩

/-- Embedding of the `matchedLanguages` computation of `codeBlockCompleter`:
catalog entries whose lower-cased value starts with the lower-cased typed
language, sorted with the `localeCompare` comparator. `Array.prototype.sort`
is modelled as a stable sort (`List.insertionSort`). -/
def matchedLanguages (typedLang : Str) (languages : List Str) : List Str :=
  List.insertionSort localeLe
    (languages.filter (fun lang => (lowerKey typedLang).isPrefixOf (lowerKey lang)))

/-- A CodeMirror completion option as built by `codeBlockCompleter`. The
`apply` closure of the source is `createApplyFunction lang openingFence`; the
option records the `desiredLang` the closure captures. -/
structure Completion where
  label : Str
  detail : Str
  lang : Str
deriving Repr, DecidableEq

/-- Label of the no-language option. -/
def noLanguageLabel : Str := "No language".toList

/-- Detail string marking the custom-language option. -/
def customDetail : Str := "custom language".toList

/-- Embedding of the option-list construction of `codeBlockCompleter` in
`codeMirror6Plugin.ts` (matched options, optional custom option, optional
leading no-language option). -/
def buildOptions (openingFence : OpeningFence) (languages : List Str) : List Completion :=
  let typedLang := openingFence.typedLang
  let matched := matchedLanguages typedLang languages
  let matchedOptions := matched.map (fun lang => Completion.mk lang [] lang)
  let isExactMatch := matched.contains typedLang
  let customOptions :=
    if !typedLang.isEmpty && !isExactMatch then [Completion.mk typedLang customDetail typedLang]
    else []
  let options := matchedOptions ++ customOptions
  if typedLang.isEmpty then Completion.mk noLanguageLabel [] [] :: options else options

/-- Value returned by the completion source: the replacement start offset and
the ordered options (`filter: false` leaves the order as built). -/
structure CompletionResult where
  fromPos : Nat
  options : List Completion
deriving Repr, DecidableEq

/-- Embedding of `codeBlockCompleter`: parse the fence at the cursor and build
the options from the fetched catalog. -/
def codeBlockCompleter (lineText : Str) (lineStartPos pos : Nat)
    (languages : List Str) : Option CompletionResult :=
  (parseOpeningFence lineText lineStartPos pos).map
    (fun openingFence => ⟨openingFence.languageStartPos, buildOptions openingFence languages⟩)

/-- Offset of the start of the line containing `pos` (CodeMirror
`doc.lineAt(pos).from`): the position right after the last line break
strictly before `pos`. -/
def lineFromAt (doc : Str) (pos : Nat) : Nat :=
  pos - ((doc.take pos).reverse.takeWhile (fun c => c ≠ '\n')).length

/-- The three characters before the cursor,
`update.state.doc.sliceString(pos - 3, pos)` guarded by `pos >= 3`. -/
def lastThreeAt (doc : Str) (pos : Nat) : Str :=
  if 3 ≤ pos then (doc.drop (pos - 3)).take 3 else []

/-- Decision logic of the `triggerCompletionOnFence` update listener in
`codeMirror6Plugin.ts`, for a typed document change that left the cursor at
`pos`: it requests `startCompletion` exactly when this returns `true`. -/
def triggerFires (doc : Str) (pos : Nat) : Bool :=
  let lastThreeChars := lastThreeAt doc pos
  if lastThreeChars = "```".toList ∨ lastThreeChars = "~~~".toList then
    let lineFrom := lineFromAt doc pos
    let textBeforeFence := (doc.drop lineFrom).take (pos - lineFrom - 3)
    textBeforeFence.all (·.isWhitespace)
  else false

/-- Proposition that a run of three identical fence characters starts at
index `i` of the line. -/
def startsFenceRun (l : Str) (i : Nat) : Prop :=
  ∃ d, isFenceChar d = true ∧ (l.drop i).take 3 = [d, d, d]

/-- Outcome of one `context.postMessage({ command: 'getLanguages' })` call:
the promise resolves with a language list, resolves with a response carrying
no languages (`null` or a missing field), or rejects. -/
inductive FetchOutcome where
  | success (langs : List Str)
  | noLanguages
  | rejected
deriving Repr, DecidableEq

/-- Private mutable state of the `LanguageCache` singleton. -/
structure LanguageCacheState where
  languages : List Str
  hasFetched : Bool
deriving Repr, DecidableEq

/-- State of a freshly constructed `LanguageCache` (fields `languages = []`,
`hasFetched = false`). -/
def initialCacheState : LanguageCacheState := ⟨[], false⟩

namespace LanguageCache

/-- Body of the `try` block of `LanguageCache.refresh`: a rejected
`postMessage` promise surfaces as an exception (`Except.error`); a response
without languages leaves the state unchanged. -/
def refreshBody (s : LanguageCacheState) (o : FetchOutcome) :
    Except Unit LanguageCacheState :=
  match o with
  | .success langs => .ok ⟨langs, true⟩
  | .noLanguages => .ok s
  | .rejected => .error ()

/-- Embedding of `LanguageCache.refresh`: the `catch` swallows the exception
(logging it) and the method returns `this.languages` of the resulting state. -/
def refresh (s : LanguageCacheState) (o : FetchOutcome) :
    LanguageCacheState × List Str :=
  match refreshBody s o with
  | .ok s2 => (s2, s2.languages)
  | .error _ => (s, s.languages)

/-- Embedding of `LanguageCache.getLanguages`: once a fetch has succeeded it
returns the cached list immediately and fires a background refresh; before
that it awaits `refresh`. -/
def getLanguages (s : LanguageCacheState) (o : FetchOutcome) :
    LanguageCacheState × List Str :=
  if s.hasFetched then ((refresh s o).1, s.languages)
  else refresh s o

end LanguageCache

/-- Splitting a string at a separator character, modelling
`String.prototype.split` (so `split(',')` of the empty string is `[""]`). -/
def splitChar (sep : Char) : Str → List Str
  | [] => [[]]
  | c :: t =>
    let r := splitChar sep t
    if c = sep then [] :: r
    else
      match r with
      | [] => [[c]]
      | h :: t2 => (c :: h) :: t2

/-- Whitespace trimming, modelling `String.prototype.trim`. -/
def trim (s : Str) : Str :=
  ((s.dropWhile (·.isWhitespace)).reverse.dropWhile (·.isWhitespace)).reverse

/-- The `DEFAULT_LANGUAGES` constant of `src/settings.ts`. -/
def DEFAULT_LANGUAGES : Str :=
  ("javascript, typescript, python, bash, shell, html, css, sql, json, xml, yaml, " ++
    "markdown, c, cpp, csharp, java, go, rust, php, ruby, swift, kotlin").toList

/-- Embedding of `getLanguageList` from `src/settings.ts`, applied to the
cached `languages` setting string. -/
def getLanguageList (languagesSetting : Str) : List Str :=
  ((splitChar ',' languagesSetting).map trim).filter (fun lang => 0 < lang.length)

/-! Supporting lemmas shared by the claim theorems. -/

theorem fenceChar_cases {c : Char} (h : isFenceChar c = true) : c = backtickChar ∨ c = '~' := by
  unfold isFenceChar at h
  rcases Bool.or_eq_true_iff.mp h with h1 | h1
  · exact Or.inl (by simpa using h1)
  · exact Or.inr (by simpa using h1)

theorem fenceChar_not_whitespace {c : Char} (h : isFenceChar c = true) :
    c.isWhitespace = false := by
  rcases fenceChar_cases h with rfl | rfl <;> decide

theorem fenceChar_not_newline {c : Char} (h : isFenceChar c = true) : c ≠ '\n' := by
  rcases fenceChar_cases h with rfl | rfl <;> decide

theorem takeWhile_append_of_all {α : Type} (p : α → Bool) {xs : List α} (ys : List α)
    (h : ∀ x ∈ xs, p x = true) :
    (xs ++ ys).takeWhile p = xs ++ ys.takeWhile p := by
  induction xs with
  | nil => simp
  | cons a t ih =>
    rw [List.cons_append, List.takeWhile_cons_of_pos (h a (by simp)), List.cons_append,
      ih (fun x hx => h x (by simp [hx]))]

theorem takeWhile_eq_self_of_all {α : Type} (p : α → Bool) {l : List α}
    (h : ∀ x ∈ l, p x = true) : l.takeWhile p = l := by
  induction l with
  | nil => rfl
  | cons a t ih =>
    rw [List.takeWhile_cons_of_pos (h a (by simp)), ih (fun x hx => h x (by simp [hx]))]

theorem takeWhile_append_stop {α : Type} (p : α → Bool) {xs : List α} {y : α} (ys : List α)
    (hall : ∀ x ∈ xs, p x = true) (hy : p y = false) :
    (xs ++ y :: ys).takeWhile p = xs := by
  rw [takeWhile_append_of_all p (y :: ys) hall, List.takeWhile_cons_of_neg (by simp [hy]),
    List.append_nil]

theorem length_takeWhile_le {α : Type} {p : α → Bool} :
    ∀ {l : List α} {i : Nat} (h : i < l.length), p (l.get ⟨i, h⟩) = false →
      (l.takeWhile p).length ≤ i
  | [], i, h, _ => by simp at h
  | a :: t, 0, _, hp => by
    have hpa : ¬ p a = true := by simp [show p a = false from hp]
    simp [List.takeWhile_cons_of_neg hpa]
  | a :: t, i + 1, h, hp => by
    by_cases ha : p a = true
    · rw [List.takeWhile_cons_of_pos ha]
      have := length_takeWhile_le (l := t) (i := i) (by simpa using Nat.lt_of_succ_lt_succ h)
        (by simpa using hp)
      simpa [Nat.succ_le_succ_iff] using Nat.succ_le_succ this
    · rw [List.takeWhile_cons_of_neg (by simpa using ha)]
      simp

theorem take3_eq {α : Type} {c : α} :
    ∀ {l : List α}, 3 ≤ l.length → (∀ x ∈ l, x = c) → l.take 3 = [c, c, c]
  | [], h, _ => by simp at h
  | [_], h, _ => by simp at h
  | [_, _], h, _ => by simp at h
  | a :: b :: d :: t, _, hall => by
    have ha := hall a (by simp)
    have hb := hall b (by simp)
    have hd := hall d (by simp)
    subst ha hb hd
    rfl

theorem isPrefixOf_self : ∀ (l : Str), l.isPrefixOf l = true
  | [] => rfl
  | a :: t => by simp [List.isPrefixOf, isPrefixOf_self t]

theorem mem_matchedLanguages {t : Str} {catalog : List Str} :
    t ∈ matchedLanguages t catalog ↔ t ∈ catalog := by
  simp [matchedLanguages, List.mem_insertionSort, List.mem_filter, isPrefixOf_self]

theorem contains_iff {l : List Str} {a : Str} : l.contains a = true ↔ a ∈ l := by
  simp [List.contains]

theorem buildOptions_labels (f : OpeningFence) (catalog : List Str) :
    (buildOptions f catalog).map Completion.label =
      (if f.typedLang.isEmpty then [noLanguageLabel] else []) ++
        matchedLanguages f.typedLang catalog ++
        (if !f.typedLang.isEmpty && !(matchedLanguages f.typedLang catalog).contains f.typedLang
          then [f.typedLang] else []) := by
  have hcomp : (Completion.label ∘ fun lang => Completion.mk lang ([] : Str) lang) = id := rfl
  unfold buildOptions
  by_cases hmem : f.typedLang ∈ matchedLanguages f.typedLang catalog <;>
    cases he : f.typedLang.isEmpty <;>
      simp [he, hmem, List.contains, List.map_map, hcomp]

theorem parse_decomposition (w : Str) (c : Char) (n : Nat) (L r : Str)
    (lineStart pos : Nat)
    (hw : ∀ x ∈ w, x.isWhitespace = true)
    (hc : isFenceChar c = true)
    (hn : 3 ≤ n)
    (hL : ∀ x ∈ L, langChar x = true)
    (hhead : ∀ y ∈ (L ++ r).take 1, y ≠ c)
    (hr : ∀ y ∈ r.take 1, langChar y = false)
    (hpos : lineStart + w.length + n ≤ pos) :
    parseOpeningFence (w ++ (List.replicate n c ++ (L ++ r))) lineStart pos =
      some ⟨w, c, n, L, lineStart + w.length + n⟩ := by
  obtain ⟨m, rfl⟩ : ∃ m, n = m + 3 := ⟨n - 3, by omega⟩
  have hcw : c.isWhitespace = false := fenceChar_not_whitespace hc
  have hcons : List.replicate (m + 3) c ++ (L ++ r) =
      c :: (List.replicate (m + 2) c ++ (L ++ r)) := by
    rw [List.replicate_succ c (m + 2), List.cons_append]
  have hindent : (w ++ (List.replicate (m + 3) c ++ (L ++ r))).takeWhile (·.isWhitespace) = w := by
    rw [hcons]
    exact takeWhile_append_stop _ _ hw hcw
  have htail : ∀ y ∈ (L ++ r), y ∈ L ∨ y ∈ r := by
    intro y hy; exact List.mem_append.mp hy
  have htwtail : (L ++ r).takeWhile (· == c) = [] := by
    cases hLr : L ++ r with
    | nil => rfl
    | cons y t =>
      have hy : y ≠ c := hhead y (by simp [hLr])
      exact List.takeWhile_cons_of_neg (by simp [hy])
  have hfence : (c :: (List.replicate (m + 2) c ++ (L ++ r))).takeWhile (· == c) =
      List.replicate (m + 3) c := by
    rw [← hcons]
    rw [takeWhile_append_of_all _ _ (fun x hx => by
      simp [List.eq_of_mem_replicate hx]), htwtail, List.append_nil]
  have hlang : ((c :: (List.replicate (m + 2) c ++ (L ++ r))).drop (m + 3)).takeWhile
      langChar = L := by
    have hdrop : (c :: (List.replicate (m + 2) c ++ (L ++ r))).drop (m + 3) = L ++ r := by
      rw [List.drop_succ_cons]
      have := List.drop_left (List.replicate (m + 2) c) (L ++ r)
      rwa [List.length_replicate] at this
    rw [hdrop, takeWhile_append_of_all _ _ hL]
    cases hr2 : r with
    | nil => simp
    | cons y t =>
      have hy : langChar y = false := hr y (by simp [hr2])
      rw [List.takeWhile_cons_of_neg (by simp [hy]), List.append_nil]
  simp only [parseOpeningFence]
  rw [hindent, List.drop_left, hcons]
  dsimp only
  rw [if_pos hc, hfence, List.length_replicate, hlang]
  rw [if_pos (by omega : 3 ≤ m + 3), if_neg (by omega)]

/-! Claim theorems. -/

/-- C7: whenever `parseOpeningFence` succeeds, the cursor offset is at or after
`languageStartPos`; equivalently, for every cursor offset strictly before the
end of the matched fence-marker run the parser returns none. -/
theorem parse_cursor_at_language_start (lineText : Str) (lineStartPos pos : Nat)
    (f : OpeningFence) (h : parseOpeningFence lineText lineStartPos pos = some f) :
    f.languageStartPos ≤ pos := by
  simp only [parseOpeningFence] at h
  split at h
  · exact absurd h (by simp)
  · split at h
    · split at h
      · split at h
        · exact absurd h (by simp)
        · rename_i hguard
          obtain rfl := Option.some.inj h
          exact Nat.le_of_not_lt hguard
      · exact absurd h (by simp)
    · exact absurd h (by simp)

/-- Witness for C7 at the line consisting of three backticks with the cursor
right after the markers. -/
theorem parse_cursor_at_language_start_instance :
    parseOpeningFence "```".toList 0 3 = some ⟨[], backtickChar, 3, [], 3⟩ ∧
      (OpeningFence.mk [] backtickChar 3 [] 3).languageStartPos ≤ 3 :=
  ⟨by decide, parse_cursor_at_language_start "```".toList 0 3 _ (by decide)⟩

/-- C3: on a line made of optional leading whitespace, a run of three or more
identical fence characters and a trailing run of non-whitespace non-fence
characters, `parseOpeningFence` (with the cursor at or after the language
start) reports exactly the run length as `fenceCount` and exactly the
trailing run as `typedLang`; and on a line whose first fence run is preceded
by some non-whitespace character it returns none. -/
theorem parse_fence_run_and_reject :
    (∀ (w : Str) (c : Char) (n : Nat) (L : Str) (lineStart pos : Nat),
        (∀ x ∈ w, x.isWhitespace = true) → isFenceChar c = true → 3 ≤ n →
        (∀ x ∈ L, x.isWhitespace = false ∧ isFenceChar x = false) →
        lineStart + w.length + n ≤ pos →
        parseOpeningFence (w ++ (List.replicate n c ++ L)) lineStart pos =
          some ⟨w, c, n, L, lineStart + w.length + n⟩) ∧
    (∀ (line : Str) (lineStart pos : Nat) (p : Str) (c : Char) (s : Str),
        line = p ++ (c :: c :: c :: s) → isFenceChar c = true →
        (∃ x ∈ p, x.isWhitespace = false) →
        (∀ i, i < p.length → ¬ startsFenceRun line i) →
        parseOpeningFence line lineStart pos = none) := by
  constructor
  · intro w c n L lineStart pos hw hc hn hL hpos
    have hL2 : ∀ x ∈ L, langChar x = true := by
      intro x hx
      obtain ⟨h1, h2⟩ := hL x hx
      have hxb : x ≠ backtickChar := by
        intro hbe
        rw [hbe] at h2
        exact absurd h2 (by decide)
      unfold langChar
      rw [h1]
      simp [hxb]
    have hhead : ∀ y ∈ (L ++ ([] : Str)).take 1, y ≠ c := by
      intro y hy
      rw [List.append_nil] at hy
      obtain ⟨h1, h2⟩ := hL y (List.take_subset 1 L hy)
      intro he
      rw [he, hc] at h2
      cases h2
    have hr : ∀ y ∈ ([] : Str).take 1, langChar y = false := by
      intro y hy
      simp at hy
    have h := parse_decomposition w c n L [] lineStart pos hw hc hn hL2 hhead hr hpos
    rwa [List.append_nil] at h
  · intro line lineStart pos p c s hline hc hnw hnorun
    subst hline
    obtain ⟨x, hxp, hxw⟩ := hnw
    obtain ⟨i, hip, hpi⟩ := List.mem_iff_getElem.mp hxp
    have hlen : i < (p ++ (c :: c :: c :: s)).length := by
      simp only [List.length_append]
      omega
    have hgi : (p ++ (c :: c :: c :: s))[i] = x := by
      rw [List.getElem_append_left hip]
      exact hpi
    have hwl : ((p ++ (c :: c :: c :: s)).takeWhile (·.isWhitespace)).length ≤ i := by
      apply length_takeWhile_le hlen
      rw [← hgi] at hxw
      exact hxw
    have hwp : ((p ++ (c :: c :: c :: s)).takeWhile (·.isWhitespace)).length < p.length :=
      lt_of_le_of_lt hwl hip
    simp only [parseOpeningFence]
    cases hrest : (p ++ (c :: c :: c :: s)).drop
        ((p ++ (c :: c :: c :: s)).takeWhile (·.isWhitespace)).length with
    | nil => rfl
    | cons c1 t =>
      dsimp only
      by_cases hfc : isFenceChar c1 = true
      · rw [if_pos hfc]
        by_cases h3 : 3 ≤ ((c1 :: t).takeWhile (· == c1)).length
        · exfalso
          apply hnorun ((p ++ (c :: c :: c :: s)).takeWhile (·.isWhitespace)).length hwp
          refine ⟨c1, hfc, ?_⟩
          rw [hrest]
          have h6 : (c1 :: t).take 3 = ((c1 :: t).takeWhile (· == c1)).take 3 := by
            conv_lhs => rw [← List.takeWhile_append_dropWhile (· == c1) (c1 :: t)]
            rw [List.take_append_of_le_length h3]
          rw [h6]
          exact take3_eq h3 (fun y hy => by simpa using List.mem_takeWhile_imp hy)
        · rw [if_neg h3]
      · rw [if_neg hfc]

/-- Witness for C3 at the line consisting of a space, three tildes and the
language run "py", with the cursor at the end of the line. -/
theorem parse_fence_run_and_reject_instance :
    (∀ x ∈ ([' '] : Str), x.isWhitespace = true) ∧
      parseOpeningFence (([' '] : Str) ++ (List.replicate 3 '~' ++ "py".toList)) 0 6 =
        some ⟨[' '], '~', 3, "py".toList, 0 + 1 + 3⟩ :=
  ⟨by decide, parse_fence_run_and_reject.1 [' '] '~' 3 "py".toList 0 6 (by decide)
    (by decide) (by decide) (by decide) (by decide)⟩

/-- Counterexample to C4 as stated: on the line consisting of three backticks
followed by "python", with the cursor right after "py" (offset 5), the parser
reports `typedLang = "python"`, the whole word, not the "py" that precedes the
cursor. -/
theorem parse_typedLang_ignores_cursor_cex :
    (parseOpeningFence "```python".toList 0 5).map OpeningFence.typedLang =
        some "python".toList ∧
      "python".toList ≠ "py".toList := by decide

/-- C4 (amended): `typedLang` is the entire maximal run of non-whitespace,
non-backtick characters immediately following the fence markers; it does not
depend on the cursor offset (which may sit anywhere at or after the language
start, including inside the language word). -/
theorem parse_typedLang_full_run (w : Str) (c : Char) (n : Nat) (L r : Str)
    (lineStart pos : Nat)
    (hw : ∀ x ∈ w, x.isWhitespace = true) (hc : isFenceChar c = true) (hn : 3 ≤ n)
    (hL : ∀ x ∈ L, langChar x = true)
    (hhead : ∀ y ∈ (L ++ r).take 1, y ≠ c)
    (hr : ∀ y ∈ r.take 1, langChar y = false)
    (hpos : lineStart + w.length + n ≤ pos) :
    (parseOpeningFence (w ++ (List.replicate n c ++ (L ++ r))) lineStart pos).map
      OpeningFence.typedLang = some L := by
  rw [parse_decomposition w c n L r lineStart pos hw hc hn hL hhead hr hpos]
  rfl

/-- Witness for C4 (amended) on the line "```python" with the cursor inside
the word, right after "py": the reported language is still the full word. -/
theorem parse_typedLang_full_run_instance :
    (3 : Nat) + 0 + 0 ≤ 5 ∧
      (parseOpeningFence (([] : Str) ++ (List.replicate 3 backtickChar ++
          ("python".toList ++ ([] : Str)))) 0 5).map OpeningFence.typedLang =
        some "python".toList :=
  ⟨by decide, parse_typedLang_full_run [] backtickChar 3 "python".toList [] 0 5
    (by decide) (by decide) (by decide) (by decide) (by decide) (by decide) (by decide)⟩

/-- C5 (code bug): on the tilde-fence line "~~~a`b" the language field stops
at the embedded backtick, so `typedLang` is "a" and not the "a`b" promised by
the code's own comment (tilde fences are documented to forbid only
whitespace in the language field). -/
theorem parse_tilde_fence_excludes_backtick_bug :
    (parseOpeningFence "~~~a`b".toList 0 6).map OpeningFence.typedLang = some ['a'] ∧
      (['a'] : Str) ≠ "a`b".toList := by decide

/-- C1: applying a selected completion option replaces the document span from
`languageStartPos` to the current cursor offset with the language text, a
line break, the indent, another line break, the indent and a closing fence of
the opening fence's character repeated `fenceCount` times; the new cursor is
at `languageStartPos + |lang| + |lineBreak| + |indent|`, on the blank
interior line right after the indentation. -/
theorem apply_inserts_closing_fence (doc lineText lb : Str)
    (lineStart pos curPos : Nat) (f : OpeningFence) (catalog : List Str)
    (opt : Completion) (hparse : parseOpeningFence lineText lineStart pos = some f)
    (hopt : opt ∈ buildOptions f catalog) (hlb : lb ≠ []) :
    createApplyFunction opt.lang f doc lb f.languageStartPos curPos =
      ⟨doc.take f.languageStartPos ++
          (opt.lang ++ lb ++ f.indent ++ lb ++ f.indent ++
            List.replicate f.fenceCount f.fenceChar) ++
          doc.drop curPos,
        f.languageStartPos + opt.lang.length + lb.length + f.indent.length⟩ := by
  have hlbe : lb.isEmpty = false := by
    cases lb with
    | nil => exact absurd rfl hlb
    | cons a t => rfl
  simp [createApplyFunction, hlbe]

/-- Witness for C1: completing "python" on the line "```py" with the cursor
at the end produces the full block with a matching closing fence and the
cursor on the blank interior line. -/
theorem apply_inserts_closing_fence_instance :
    parseOpeningFence "```py".toList 0 5 = some ⟨[], backtickChar, 3, "py".toList, 3⟩ ∧
      Completion.mk "python".toList [] "python".toList ∈
        buildOptions ⟨[], backtickChar, 3, "py".toList, 3⟩ ["python".toList] ∧
      createApplyFunction "python".toList ⟨[], backtickChar, 3, "py".toList, 3⟩
          "```py".toList ['\n'] 3 5 =
        ⟨"```python\n\n```".toList, 10⟩ := by
  refine ⟨by decide, by decide, ?_⟩
  have h := apply_inserts_closing_fence "```py".toList "```py".toList ['\n'] 0 5 5
    ⟨[], backtickChar, 3, "py".toList, 3⟩ ["python".toList]
    (Completion.mk "python".toList [] "python".toList) (by decide) (by decide) (by decide)
  exact h.trans (by decide)

/-- C2: the completion source lists one no-language option first exactly when
nothing has been typed, then the case-insensitive prefix matches of the
catalog in locale-aware ascending order, then one custom option exactly when
something was typed that exactly matches no catalog entry; in particular the
catalog ["python", "php", "javascript"] with typed prefix "p" produces the
matched list ["php", "python"]. -/
theorem completer_option_order :
    (∀ (f : OpeningFence) (catalog : List Str),
        (buildOptions f catalog).map Completion.label =
            (if f.typedLang = [] then [noLanguageLabel] else []) ++
              matchedLanguages f.typedLang catalog ++
              (if f.typedLang ≠ [] ∧ f.typedLang ∉ catalog then [f.typedLang] else []) ∧
          (matchedLanguages f.typedLang catalog).Perm
            (catalog.filter (fun lang => (lowerKey f.typedLang).isPrefixOf (lowerKey lang))) ∧
          List.Sorted localeLe (matchedLanguages f.typedLang catalog)) ∧
      matchedLanguages "p".toList ["python".toList, "php".toList, "javascript".toList] =
        ["php".toList, "python".toList] := by
  constructor
  · intro f catalog
    refine ⟨?_, by unfold matchedLanguages; exact List.perm_insertionSort _ _,
      by unfold matchedLanguages; exact List.sorted_insertionSort _ _⟩
    rw [buildOptions_labels]
    by_cases hne : f.typedLang = []
    · have hemp : f.typedLang.isEmpty = true := by rw [hne]; rfl
      simp [hemp, hne]
    · have hemp : f.typedLang.isEmpty = false := by
        cases hft : f.typedLang with
        | nil => exact absurd hft hne
        | cons a t => rfl
      by_cases hmem : f.typedLang ∈ matchedLanguages f.typedLang catalog
      · have hcat : f.typedLang ∈ catalog := mem_matchedLanguages.mp hmem
        have hct : (matchedLanguages f.typedLang catalog).contains f.typedLang = true :=
          contains_iff.mpr hmem
        simp [hemp, hne, hct, hcat, hmem]
      · have hcat : f.typedLang ∉ catalog := fun hx => hmem (mem_matchedLanguages.mpr hx)
        have hct : (matchedLanguages f.typedLang catalog).contains f.typedLang = false := by
          cases hcb : (matchedLanguages f.typedLang catalog).contains f.typedLang
          · rfl
          · exact absurd (contains_iff.mp hcb) hmem
        simp [hemp, hne, hct, hcat, hmem]
  · decide

/-- Counterexample to C6 as stated: a catalog holding "python" twice makes the
completion source emit two options labelled "python" in one request. -/
theorem duplicate_catalog_duplicate_labels_cex :
    (buildOptions ⟨[], backtickChar, 3, "py".toList, 3⟩
          ["python".toList, "python".toList]).map Completion.label =
        ["python".toList, "python".toList, "py".toList] ∧
      ¬ ((buildOptions ⟨[], backtickChar, 3, "py".toList, 3⟩
          ["python".toList, "python".toList]).map Completion.label).Nodup := by decide

/-- C6 (amended): if the catalog entries are pairwise distinct and the literal
label "No language" is not itself a catalog entry, then no two options of one
completion request carry identical labels. The code performs no
deduplication, so duplicate catalog entries do yield duplicate labels. -/
theorem options_labels_nodup (f : OpeningFence) (catalog : List Str)
    (hnd : catalog.Nodup) (hnl : noLanguageLabel ∉ catalog) :
    ((buildOptions f catalog).map Completion.label).Nodup := by
  have hperm : (matchedLanguages f.typedLang catalog).Perm
      (catalog.filter (fun lang => (lowerKey f.typedLang).isPrefixOf (lowerKey lang))) := by
    unfold matchedLanguages
    exact List.perm_insertionSort _ _
  have hmnd : (matchedLanguages f.typedLang catalog).Nodup :=
    hperm.nodup_iff.mpr (hnd.filter _)
  have hsub : ∀ x ∈ matchedLanguages f.typedLang catalog, x ∈ catalog := by
    intro x hx
    exact (List.mem_filter.mp (hperm.mem_iff.mp hx)).1
  rw [buildOptions_labels]
  cases he : f.typedLang.isEmpty
  · by_cases hct : (matchedLanguages f.typedLang catalog).contains f.typedLang = true
    · simp [hct, contains_iff.mp hct, hmnd]
    · have hnm : f.typedLang ∉ matchedLanguages f.typedLang catalog :=
        fun hmem => hct (contains_iff.mpr hmem)
      have hctf : (matchedLanguages f.typedLang catalog).contains f.typedLang = false := by
        cases hcb : (matchedLanguages f.typedLang catalog).contains f.typedLang
        · rfl
        · exact absurd hcb hct
      simp [hctf, List.nodup_append, hmnd, hnm]
  · have hnot : noLanguageLabel ∉ matchedLanguages f.typedLang catalog :=
      fun hm => hnl (hsub _ hm)
    simp [List.nodup_cons, hnot, hmnd]

/-- Witness for C6 (amended) with a duplicate-free catalog and typed prefix
"py". -/
theorem options_labels_nodup_instance :
    (["python".toList, "php".toList] : List Str).Nodup ∧
      ((buildOptions ⟨[], backtickChar, 3, "py".toList, 3⟩
        ["python".toList, "php".toList]).map Completion.label).Nodup :=
  ⟨by decide, options_labels_nodup ⟨[], backtickChar, 3, "py".toList, 3⟩
    ["python".toList, "php".toList] (by decide) (by decide)⟩

/-- C10: for a non-empty typed language, the custom option is suppressed
exactly when some catalog entry equals the typed text character for
character; with catalog ["python"] and typed text "Python" the list holds
both the matched "python" and a custom "Python". -/
theorem custom_suppression_case_sensitive :
    (∀ (f : OpeningFence) (catalog : List Str), f.typedLang ≠ [] →
        ((∀ opt ∈ buildOptions f catalog, opt.detail ≠ customDetail) ↔
          f.typedLang ∈ catalog)) ∧
      (buildOptions ⟨[], backtickChar, 3, "Python".toList, 3⟩ ["python".toList]).map
          (fun opt => (opt.label, opt.detail)) =
        [("python".toList, ([] : Str)), ("Python".toList, customDetail)] := by
  constructor
  · intro f catalog hne
    have hemp : f.typedLang.isEmpty = false := by
      cases hft : f.typedLang with
      | nil => exact absurd hft hne
      | cons a t => rfl
    constructor
    · intro hall
      by_contra hcat
      have hmem : f.typedLang ∉ matchedLanguages f.typedLang catalog :=
        fun hx => hcat (mem_matchedLanguages.mp hx)
      have hct : (matchedLanguages f.typedLang catalog).contains f.typedLang = false := by
        cases hcb : (matchedLanguages f.typedLang catalog).contains f.typedLang
        · rfl
        · exact absurd (contains_iff.mp hcb) hmem
      have hopt : Completion.mk f.typedLang customDetail f.typedLang ∈
          buildOptions f catalog := by
        unfold buildOptions
        simp [hemp, hmem]
      exact hall _ hopt rfl
    · intro hcat opt hopt
      have hmem2 : f.typedLang ∈ matchedLanguages f.typedLang catalog :=
        mem_matchedLanguages.mpr hcat
      unfold buildOptions at hopt
      simp [hemp, hmem2] at hopt
      obtain ⟨lang, hlang, heq⟩ := hopt
      subst heq
      intro hde
      exact absurd (show ([] : Str) = customDetail from hde) (by decide)
  · decide

/-- Witness for C10 with catalog ["python"] and typed text "Python": the
custom option is present (not suppressed), matching "Python" ∉ catalog. -/
theorem custom_suppression_case_sensitive_instance :
    ("Python".toList : Str) ≠ [] ∧
      ((∀ opt ∈ buildOptions ⟨[], backtickChar, 3, "Python".toList, 3⟩ ["python".toList],
          opt.detail ≠ customDetail) ↔ ("Python".toList : Str) ∈ [("python".toList : Str)]) :=
  ⟨by decide, custom_suppression_case_sensitive.1
    ⟨[], backtickChar, 3, "Python".toList, 3⟩ ["python".toList] (by decide)⟩

/-- Counterexample to C9 as stated: before any successful fetch, a failing
refresh leaves the cache empty, so `getLanguages` returns the empty list and
not the built-in default language list of the settings module. -/
theorem getLanguages_failure_not_default_cex :
    (LanguageCache.getLanguages initialCacheState FetchOutcome.rejected).2 = ([] : List Str) ∧
      getLanguageList DEFAULT_LANGUAGES ≠ ([] : List Str) := by decide

/-- C9 (amended): a failed catalog fetch (rejected promise or response
without languages) is absorbed inside `getLanguages`: no exception escapes
(the embedding is total, the `Except.error` of the fetch being caught in
`refresh`), the cached state is unchanged and the previously cached list is
returned — which is the empty initial list, not the settings default, when
no fetch has yet succeeded. -/
theorem getLanguages_failure_keeps_cache (s : LanguageCacheState) (o : FetchOutcome)
    (h : ∀ langs, o ≠ FetchOutcome.success langs) :
    LanguageCache.getLanguages s o = (s, s.languages) := by
  have hr : LanguageCache.refresh s o = (s, s.languages) := by
    cases o with
    | success langs => exact absurd rfl (h langs)
    | noLanguages => rfl
    | rejected => rfl
  unfold LanguageCache.getLanguages
  rw [hr]
  cases hf : s.hasFetched <;> simp

/-- Witness for C9 (amended) at the initial cache state and a rejected
fetch. -/
theorem getLanguages_failure_keeps_cache_instance :
    LanguageCache.getLanguages initialCacheState FetchOutcome.rejected =
      (initialCacheState, initialCacheState.languages) :=
  getLanguages_failure_keeps_cache initialCacheState FetchOutcome.rejected
    (fun _ h => FetchOutcome.noConfusion h)

/-- C8: the trigger decision of the update listener requests the popup
exactly when the three characters before the new cursor are one identical
run of fence characters (``` or ~~~) and the line text before that run is
pure whitespace; consequently typing a fourth consecutive fence character
never fires, since the character before the three-character run is then a
fence character rather than whitespace. -/
theorem trigger_fires_iff :
    (∀ (doc : Str) (pos : Nat),
        triggerFires doc pos = true ↔
          ∃ c, isFenceChar c = true ∧ 3 ≤ pos ∧ lastThreeAt doc pos = [c, c, c] ∧
            ((doc.drop (lineFromAt doc pos)).take (pos - lineFromAt doc pos - 3)).all
              (·.isWhitespace) = true) ∧
    (∀ (doc : Str) (pos : Nat) (c : Char), isFenceChar c = true → 4 ≤ pos →
        (doc.drop (pos - 4)).take 4 = [c, c, c, c] → triggerFires doc pos = false) := by
  constructor
  · intro doc pos
    simp only [triggerFires]
    by_cases hc3 : lastThreeAt doc pos = "```".toList ∨ lastThreeAt doc pos = "~~~".toList
    · rw [if_pos hc3]
      constructor
      · intro hall
        have h3pos : 3 ≤ pos := by
          by_contra hlt
          have hempty : lastThreeAt doc pos = [] := by
            unfold lastThreeAt
            rw [if_neg hlt]
          rcases hc3 with h | h <;> rw [hempty] at h <;> exact absurd h (by decide)
        rcases hc3 with h | h
        · exact ⟨backtickChar, by decide, h3pos, by rw [h]; decide, hall⟩
        · exact ⟨'~', by decide, h3pos, by rw [h]; decide, hall⟩
      · rintro ⟨c, hfc, h3, hlast2, hall⟩
        exact hall
    · rw [if_neg hc3]
      constructor
      · intro h
        exact absurd h (by decide)
      · rintro ⟨c, hfc, h3, hlast2, hall⟩
        exfalso
        apply hc3
        rcases fenceChar_cases hfc with rfl | rfl
        · exact Or.inl (by rw [hlast2]; decide)
        · exact Or.inr (by rw [hlast2]; decide)
  · intro doc pos c hfc h4 htake
    have hdlen : pos ≤ doc.length := by
      have h0 := congrArg List.length htake
      simp [List.length_take, List.length_drop] at h0
      omega
    have hsplit : doc.drop (pos - 4) = [c, c, c, c] ++ (doc.drop (pos - 4)).drop 4 := by
      conv_lhs => rw [← List.take_append_drop 4 (doc.drop (pos - 4))]
      rw [htake]
    have hlast : lastThreeAt doc pos = [c, c, c] := by
      unfold lastThreeAt
      rw [if_pos (by omega : 3 ≤ pos)]
      have h1 : pos - 3 = pos - 4 + 1 := by omega
      rw [h1]
      conv_lhs => rw [← List.drop_drop, hsplit]
      rfl
    have htp : doc.take pos = doc.take (pos - 4) ++ [c, c, c, c] := by
      have h1 : pos = pos - 4 + 4 := by omega
      conv_lhs => rw [h1, List.take_add, htake]
    have hrev : (doc.take pos).reverse = [c, c, c, c] ++ (doc.take (pos - 4)).reverse := by
      rw [htp, List.reverse_append]
      rfl
    have hall4 : ∀ x ∈ ([c, c, c, c] : Str), decide (x ≠ '\n') = true := by
      intro x hx
      have hxc : x = c := by simpa using hx
      subst hxc
      simp [fenceChar_not_newline hfc]
    have hk : 4 ≤ ((doc.take pos).reverse.takeWhile (fun ch => ch ≠ '\n')).length := by
      rw [hrev, takeWhile_append_of_all _ _ hall4, List.length_append]
      simp
    have hlf2 : lineFromAt doc pos ≤ pos - 4 := by
      unfold lineFromAt
      omega
    have hA : (doc.drop (lineFromAt doc pos)).drop (pos - 4 - lineFromAt doc pos) =
        doc.drop (pos - 4) := by
      rw [List.drop_drop]
      have h1 : lineFromAt doc pos + (pos - 4 - lineFromAt doc pos) = pos - 4 := by omega
      rw [h1]
    have htb : (doc.drop (lineFromAt doc pos)).take (pos - lineFromAt doc pos - 3) =
        (doc.drop (lineFromAt doc pos)).take (pos - 4 - lineFromAt doc pos) ++ [c] := by
      have h2 : pos - lineFromAt doc pos - 3 = (pos - 4 - lineFromAt doc pos) + 1 := by omega
      rw [h2, List.take_add, hA]
      congr 1
      conv_lhs => rw [hsplit]
      rfl
    simp only [triggerFires]
    have hcond : lastThreeAt doc pos = "```".toList ∨ lastThreeAt doc pos = "~~~".toList := by
      rcases fenceChar_cases hfc with rfl | rfl
      · exact Or.inl (by rw [hlast]; decide)
      · exact Or.inr (by rw [hlast]; decide)
    rw [if_pos hcond]
    apply Bool.eq_false_iff.mpr
    intro hall
    have hmemc : c ∈ (doc.drop (lineFromAt doc pos)).take (pos - lineFromAt doc pos - 3) := by
      rw [htb]
      simp
    have hwc : c.isWhitespace = true := List.all_eq_true.mp hall c hmemc
    rw [fenceChar_not_whitespace hfc] at hwc
    exact absurd hwc (by decide)

/-- Witness for C8: typing the fourth backtick of "````" (cursor at offset 4)
does not fire the trigger. -/
theorem trigger_fires_iff_instance :
    ("````".toList.drop 0).take 4 =
        [backtickChar, backtickChar, backtickChar, backtickChar] ∧
      triggerFires "````".toList 4 = false :=
  ⟨by decide, trigger_fires_iff.2 "````".toList 4 backtickChar (by decide) (by decide)
    (by decide)⟩

end CodeblockAutocomplete
